import Mathlib

/-!
Verification development for a unigram model fitting script.

The program builds a 28-symbol vocabulary (26 lowercase letters, a space,
and an unknown sentinel), one-hot encodes a character corpus into a V-by-T
matrix, and fits a logit-parameterized categorical distribution by gradient
descent with an adaptive moment-based optimizer for a fixed number of
iterations, recording the loss trajectory.

Real-valued tensor arithmetic is modelled over the reals; vectors are lists
of reals and matrices are lists of rows.
-/

/-- Model of torch.sigmoid applied to one real entry. -/
noncomputable def sigmoid (x : ℝ) : ℝ := 1 / (1 + Real.exp (-x))

/-- Model of the logit function from the source: log x minus log of one minus x. -/
noncomputable def logit (x : ℝ) : ℝ := Real.log x - Real.log (1 - x)

/-- Model of the normalize function from the source: divide a vector by its sum. -/
noncomputable def normalizeV (x : List ℝ) : List ℝ := x.map (fun a => a / x.sum)

/-- Dot product of two vectors, the 1-by-1 result of a row times column product. -/
noncomputable def dotL (a b : List ℝ) : ℝ := (List.zipWith (fun u v => u * v) a b).sum

/-- A length-n column vector as an n-by-1 matrix, one singleton row per entry. -/
def colVec (v : List ℝ) : List (List ℝ) := v.map (fun a => [a])

/-- Matrix transpose: column j of the result is the map of entry j over the rows.
The column count is read off the first row, matching a rectangular tensor. -/
noncomputable def transposeM (m : List (List ℝ)) : List (List ℝ) :=
  (List.range (m.headD []).length).map (fun j => m.map (fun r => r.getD j 0))

/-- Matrix product: entry (i, j) is the dot product of row i of A with column j of B. -/
noncomputable def matmulM (A B : List (List ℝ)) : List (List ℝ) :=
  A.map (fun row => (transposeM B).map (fun col => dotL row col))

/-- Model of torch.sum over dimension 1 with keepdim: a V-by-1 matrix of row sums. -/
noncomputable def sumDim1Keepdim (m : List (List ℝ)) : List (List ℝ) :=
  m.map (fun r => [r.sum])

/-- The scalar held by a 1-by-1 matrix. -/
noncomputable def scalarOf (m : List (List ℝ)) : ℝ := (m.headD []).headD 0

/-- Resolution of a token to a vocabulary index: the index lookup of the source,
with the not-found error branch replaced by the sentinel position V-1. -/
def resolvedIdx (vocab : List (Option Char)) (token : Option Char) : Nat :=
  match List.findIdx? (fun a => a == token) vocab with
  | some i => i
  | none => vocab.length - 1

/-- Model of onehot: a zero column of length V with a single 1 written at the
resolved index. -/
noncomputable def onehot (vocab : List (Option Char)) (token : Option Char) : List ℝ :=
  (List.range vocab.length).map (fun i => if i = resolvedIdx vocab token then 1 else 0)

/-- The vocabulary of gradient_descent_example: the 26 lowercase letters, the
space character, and the sentinel none. -/
def vocabulary : List (Option Char) :=
  ((List.range 26).map (fun i => some (Char.ofNat (i + 97)))) ++ [some (Char.ofNat 32), none]

/-- Model of the hstack of one-hot columns: the V-by-T encoding matrix as a list
of V rows, row v holding entry v of each one-hot column in corpus order. -/
noncomputable def encodings (vocab : List (Option Char)) (tokens : List (Option Char)) :
    List (List ℝ) :=
  (List.range vocab.length).map (fun v => tokens.map (fun tok => (onehot vocab tok).getD v 0))

/-- Model of Unigram.forward: p is normalizeV of the entrywise sigmoid of s; the
scalar part is the keepdim row-sum of the input, transposed and matrix-multiplied
with log p. -/
noncomputable def forward (s : List ℝ) (input : List (List ℝ)) : ℝ × List ℝ :=
  let p := normalizeV (s.map sigmoid)
  (scalarOf (matmulM (transposeM (sumDim1Keepdim input)) (colVec (p.map Real.log))), p)

/-- Model of the Unigram constructor: s0 is logit applied entrywise to the
uniform vector obtained by dividing the all-ones vector of length V by V. -/
noncomputable def Unigram_init (V : Nat) : List ℝ :=
  ((List.replicate V (1:ℝ)).map (fun a => a / (V:ℝ))).map logit

/-- Distribution induced by parameters s, as the spec words it: normalize of the
entrywise sigmoid of s. -/
noncomputable def inducedP (s : List ℝ) : List ℝ := normalizeV (s.map sigmoid)

/-- Total log-likelihood as the spec words it: the dot product of the per-symbol
column-sum count vector of the batch with log p. -/
noncomputable def loglikSpec (s : List ℝ) (input : List (List ℝ)) : ℝ :=
  dotL (input.map List.sum) ((inducedP s).map Real.log)

/-- Closed-form gradient of the loss, the negated log-likelihood, with respect
to s: the value the backward pass of the autodiff library accumulates into the
gradient buffer. -/
noncomputable def gradLoss (input : List (List ℝ)) (s : List ℝ) : List ℝ :=
  (List.range s.length).map
    (fun j => (1 - sigmoid (s.getD j 0)) *
      ((input.map List.sum).sum * (inducedP s).getD j 0 - (input.map List.sum).getD j 0))

/-- State of the adaptive moment optimizer: first and second moment estimates
and the step count. -/
structure AdamState where
  m : List ℝ
  v : List ℝ
  t : Nat

/-- One optimizer step with the default moment coefficients 0.9 and 0.999 and
epsilon 1e-8: bias-corrected moment estimates drive an adaptive update of s. -/
noncomputable def adamStep (lr : ℝ) (st : AdamState) (s g : List ℝ) : List ℝ × AdamState :=
  let t := st.t + 1
  let m := List.zipWith (fun mi gi => 0.9 * mi + (1 - 0.9) * gi) st.m g
  let v := List.zipWith (fun vi gi => 0.999 * vi + (1 - 0.999) * gi ^ 2) st.v g
  let mhat := m.map (fun mi => mi / (1 - 0.9 ^ t))
  let vhat := v.map (fun vi => vi / (1 - 0.999 ^ t))
  (List.zipWith (fun si mv => si - lr * mv.1 / (Real.sqrt mv.2 + 1e-8)) s (mhat.zip vhat),
   ⟨m, v, t⟩)

/-- Mutable training state threaded explicitly: the parameter vector, the
gradient buffer, the optimizer state, and the recorded (iteration, loss)
history. -/
structure TrainState where
  s : List ℝ
  grad : List ℝ
  opt : AdamState
  history : List (Nat × ℝ)

/-- Initial training state for a vocabulary of size V: uniform-logit parameters,
zero gradient buffer, fresh optimizer moments, empty history. -/
noncomputable def initTrainState (V : Nat) : TrainState :=
  { s := Unigram_init V
    grad := List.replicate V 0
    opt := ⟨List.replicate V 0, List.replicate V 0, 0⟩
    history := [] }

/-- One iteration of the training loop, in source order: forward pass on the
batch, loss is the negated log-likelihood, the gradient accumulates into the
buffer, one optimizer step, the buffer is zeroed, and one (iteration index,
loss value) pair is appended to the history. -/
noncomputable def trainIter (input : List (List ℝ)) (st : TrainState) : TrainState :=
  let lossVal := -(forward st.s input).1
  let g := List.zipWith (fun a b => a + b) st.grad (gradLoss input st.s)
  let stepped := adamStep 0.02 st.opt st.s g
  { s := stepped.1
    grad := g.map (fun _ => 0)
    opt := stepped.2
    history := st.history ++ [(st.history.length, lossVal)] }

/-- The training state after n iterations on the given batch, starting from the
initial model over the 28-symbol vocabulary. -/
noncomputable def trainLoopN (input : List (List ℝ)) (n : Nat) : TrainState :=
  (trainIter input)^[n] (initTrainState vocabulary.length)

/-- The fixed iteration count of gradient_descent_example. -/
def num_iterations : Nat := 100

/-- Model of the training phase of gradient_descent_example on the given batch. -/
noncomputable def gradientDescentModel (input : List (List ℝ)) : TrainState :=
  trainLoopN input num_iterations

/-- The forward pass as a state transformer: the method reads s and writes
nothing, so it pairs the unchanged state with the returned value. -/
noncomputable def forwardM (input : List (List ℝ)) (st : TrainState) :
    TrainState × (ℝ × List ℝ) :=
  (st, forward st.s input)

/-- Model of the empirical distribution of the reporting phase: the row-sum
count vector divided by the corpus length T. -/
noncomputable def trueP (input : List (List ℝ)) (T : ℝ) : List ℝ :=
  (input.map List.sum).map (fun c => c / T)

/-- Model of the closed-form minimum loss of the reporting phase: the negated
transpose of the count vector, matrix-multiplied with log of the empirical
distribution. -/
noncomputable def minLossE (input : List (List ℝ)) (T : ℝ) : ℝ :=
  -(scalarOf (matmulM (transposeM (sumDim1Keepdim input))
      (colVec ((trueP input T).map Real.log))))

/- Helper lemmas about the tensor primitives. -/

theorem transposeM_colVec (v : List ℝ) (hv : v ≠ []) : transposeM (colVec v) = [v] := by
  unfold transposeM colVec
  obtain ⟨a, t, rfl⟩ := List.exists_cons_of_ne_nil hv
  simp [List.range_succ, Function.comp_def]

theorem scalar_pipeline (v w : List ℝ) :
    scalarOf (matmulM (transposeM (colVec v)) (colVec w)) = dotL v w := by
  rcases eq_or_ne v [] with rfl | hv
  · simp [transposeM, colVec, matmulM, scalarOf, dotL]
  · rw [transposeM_colVec v hv]
    rcases eq_or_ne w [] with rfl | hw
    · simp [matmulM, transposeM, colVec, scalarOf, dotL]
    · rw [matmulM, List.map_cons, transposeM_colVec w hw]
      simp [scalarOf]

theorem sum_map_div (v : List ℝ) (c : ℝ) :
    (v.map (fun a => a / c)).sum = v.sum / c := by
  induction v with
  | nil => simp
  | cons a t ih => simp [ih, add_div]

theorem sum_map_add {α : Type} (l : List α) (f g : α → ℝ) :
    (l.map (fun a => f a + g a)).sum = (l.map f).sum + (l.map g).sum := by
  induction l with
  | nil => simp
  | cons a t ih => simp [ih]; ring

theorem sum_map_sub {α : Type} (l : List α) (f g : α → ℝ) :
    (l.map (fun a => f a - g a)).sum = (l.map f).sum - (l.map g).sum := by
  induction l with
  | nil => simp
  | cons a t ih => simp [ih]; ring

theorem sum_map_mul_const (l : List ℝ) (k : ℝ) :
    (l.map (fun a => a * k)).sum = l.sum * k := by
  induction l with
  | nil => simp
  | cons a t ih => simp [ih]; ring

theorem dotL_replicate (c : List ℝ) (k : ℝ) :
    dotL c (List.replicate c.length k) = c.sum * k := by
  induction c with
  | nil => simp [dotL]
  | cons a t ih =>
    simp only [List.length_cons, List.replicate_succ, dotL, List.zipWith_cons_cons,
      List.sum_cons] at *
    rw [ih]; ring

theorem dotL_self_map (c : List ℝ) (f : ℝ → ℝ) :
    dotL c (c.map f) = (c.map (fun a => a * f a)).sum := by
  unfold dotL
  rw [List.zipWith_map_right, List.zipWith_same]

theorem sumDim1_colVec (m : List (List ℝ)) :
    sumDim1Keepdim m = colVec (m.map List.sum) := by
  simp [sumDim1Keepdim, colVec, List.map_map, Function.comp_def]

theorem forward_eval (s : List ℝ) (input : List (List ℝ)) :
    forward s input = (loglikSpec s input, inducedP s) := by
  unfold forward loglikSpec inducedP
  simp only [sumDim1_colVec, scalar_pipeline]

theorem minLossE_eval (input : List (List ℝ)) (T : ℝ) :
    minLossE input T = -(dotL (input.map List.sum) ((trueP input T).map Real.log)) := by
  unfold minLossE
  rw [sumDim1_colVec, scalar_pipeline]

theorem trainLoopN_zero (input : List (List ℝ)) :
    trainLoopN input 0 = initTrainState vocabulary.length := rfl

theorem trainLoopN_succ (input : List (List ℝ)) (n : Nat) :
    trainLoopN input (n + 1) = trainIter input (trainLoopN input n) := by
  unfold trainLoopN
  rw [Function.iterate_succ_apply']

theorem trainLoopN_history_length (input : List (List ℝ)) (n : Nat) :
    (trainLoopN input n).history.length = n := by
  induction n with
  | zero => rfl
  | succ k ih =>
    rw [trainLoopN_succ]
    unfold trainIter
    simp [ih]

theorem trainLoopN_opt_t (input : List (List ℝ)) (n : Nat) :
    (trainLoopN input n).opt.t = n := by
  induction n with
  | zero => rfl
  | succ k ih =>
    rw [trainLoopN_succ]
    unfold trainIter adamStep
    simp [ih]

theorem trainLoopN_history_get (input : List (List ℝ)) (n i : Nat) :
    (trainLoopN input n).history[i]? =
      if i < n then some (i, -(forward (trainLoopN input i).s input).1) else none := by
  induction n with
  | zero => simp [trainLoopN_zero, initTrainState]
  | succ k ih =>
    rw [trainLoopN_succ]
    unfold trainIter
    simp only []
    rw [List.getElem?_append, trainLoopN_history_length]
    by_cases hik : i < k
    · rw [if_pos hik, ih, if_pos hik, if_pos (by omega)]
    · by_cases hik2 : i = k
      · subst hik2
        simp
      · rw [if_neg hik, if_neg (by omega)]
        apply List.getElem?_eq_none
        simp only [List.length_cons, List.length_nil]
        omega

theorem gibbs_pointwise (a T Vr : ℝ) (ha : 0 ≤ a) (hT : 0 < T) (hV : 0 < Vr) :
    a * Real.log (1 / Vr) - a * Real.log (a / T) ≤ T / Vr - a := by
  rcases eq_or_lt_of_le ha with rfl | hapos
  · simp
    positivity
  · have hy : 0 < T / (Vr * a) := by positivity
    have hlog := Real.log_le_sub_one_of_pos hy
    have hrw : Real.log (1 / Vr) - Real.log (a / T) = Real.log (T / (Vr * a)) := by
      rw [← Real.log_div (by positivity) (by positivity : (a / T) ≠ 0)]
      congr 1
      field_simp
    calc a * Real.log (1 / Vr) - a * Real.log (a / T)
        = a * (Real.log (1 / Vr) - Real.log (a / T)) := by ring
      _ = a * Real.log (T / (Vr * a)) := by rw [hrw]
      _ ≤ a * (T / (Vr * a) - 1) := mul_le_mul_of_nonneg_left hlog ha
      _ = T / Vr - a := by
          field_simp
          ring

theorem gibbs_sum (c : List ℝ) (T Vr : ℝ) (hT : 0 < T) (hV : 0 < Vr)
    (hnn : ∀ a ∈ c, 0 ≤ a) (hsum : c.sum = T) (hlen : (c.length : ℝ) = Vr) :
    c.sum * Real.log (1 / Vr) ≤ (c.map (fun a => a * Real.log (a / T))).sum := by
  have key : (c.map (fun a => a * Real.log (1 / Vr) - a * Real.log (a / T))).sum ≤
      (c.map (fun a => T / Vr - a)).sum :=
    List.sum_le_sum (fun a ha => gibbs_pointwise a T Vr (hnn a ha) hT hV)
  rw [sum_map_sub, sum_map_mul_const] at key
  have hrhs : (c.map (fun a => T / Vr - a)).sum = (c.length : ℝ) * (T / Vr) - c.sum := by
    rw [sum_map_sub]
    congr 1
    · rw [List.map_const', List.sum_replicate, nsmul_eq_mul]
    · simp
  rw [hrhs, hlen, hsum] at key
  have hz : Vr * (T / Vr) - T = 0 := by
    field_simp
  rw [hsum]
  linarith

theorem sigmoid_pos (x : ℝ) : 0 < sigmoid x := by
  unfold sigmoid
  positivity

theorem sigmoid_lt_one (x : ℝ) : sigmoid x < 1 := by
  unfold sigmoid
  rw [div_lt_one (by positivity)]
  linarith [Real.exp_pos (-x)]

theorem one_sub_sigmoid (x : ℝ) :
    1 - sigmoid x = Real.exp (-x) / (1 + Real.exp (-x)) := by
  unfold sigmoid
  have h : (0:ℝ) < 1 + Real.exp (-x) := by positivity
  field_simp

theorem logit_sigmoid (x : ℝ) : logit (sigmoid x) = x := by
  have hE : (0:ℝ) < Real.exp (-x) := Real.exp_pos _
  have hD : (0:ℝ) < 1 + Real.exp (-x) := by positivity
  unfold logit
  rw [one_sub_sigmoid]
  unfold sigmoid
  rw [Real.log_div one_ne_zero (ne_of_gt hD), Real.log_div (ne_of_gt hE) (ne_of_gt hD)]
  simp only [Real.log_exp, Real.log_one]
  ring

theorem sigmoid_logit {p : ℝ} (h0 : 0 < p) (h1 : p < 1) : sigmoid (logit p) = p := by
  have h1p : (0:ℝ) < 1 - p := by linarith
  unfold sigmoid logit
  rw [neg_sub, Real.exp_sub, Real.exp_log h1p, Real.exp_log h0]
  field_simp

theorem resolvedIdx_lt (vocab : List (Option Char)) (token : Option Char)
    (hv : vocab ≠ []) : resolvedIdx vocab token < vocab.length := by
  unfold resolvedIdx
  cases hf : List.findIdx? (fun a => a == token) vocab with
  | some i =>
    exact ((List.findIdx?_eq_some_iff_findIdx_eq).mp hf).1
  | none =>
    exact Nat.sub_lt (List.length_pos.mpr hv) Nat.one_pos

theorem resolvedIdx_of_mem {vocab : List (Option Char)} {token : Option Char}
    (h : token ∈ vocab) : resolvedIdx vocab token = vocab.indexOf token := by
  unfold resolvedIdx
  rw [List.indexOf, List.findIdx_eq_findIdx?]
  cases hf : List.findIdx? (fun a => a == token) vocab with
  | some i => rfl
  | none =>
    rw [List.findIdx?_eq_none_iff] at hf
    exact absurd (hf token h) (by simp)

theorem resolvedIdx_of_not_mem {vocab : List (Option Char)} {token : Option Char}
    (h : token ∉ vocab) : resolvedIdx vocab token = vocab.length - 1 := by
  unfold resolvedIdx
  have hf : List.findIdx? (fun a => a == token) vocab = none := by
    rw [List.findIdx?_eq_none_iff]
    intro x hx
    show (x == token) = false
    rw [beq_eq_false_iff_ne]
    rintro rfl
    exact h hx
  rw [hf]

theorem onehot_length (vocab : List (Option Char)) (token : Option Char) :
    (onehot vocab token).length = vocab.length := by
  simp [onehot]

theorem onehot_getD (vocab : List (Option Char)) (token : Option Char) (j : Nat)
    (hj : j < vocab.length) :
    (onehot vocab token).getD j 0 =
      if j = resolvedIdx vocab token then 1 else 0 := by
  unfold onehot
  rw [List.getD_eq_getElem?_getD, List.getElem?_map, List.getElem?_range hj]
  rfl

theorem vocabulary_length : vocabulary.length = 28 := by
  simp [vocabulary]

theorem sum_range_ind_zero (n r : Nat) (h : n ≤ r) :
    ((List.range n).map (fun v => if v = r then (1:ℝ) else 0)).sum = 0 := by
  apply List.sum_eq_zero
  intro x hx
  obtain ⟨v, hv, rfl⟩ := List.mem_map.mp hx
  rw [List.mem_range] at hv
  rw [if_neg (by omega)]

theorem sum_range_ind (n r : Nat) (h : r < n) :
    ((List.range n).map (fun v => if v = r then (1:ℝ) else 0)).sum = 1 := by
  induction n with
  | zero => omega
  | succ k ih =>
    rw [List.range_succ, List.map_append, List.sum_append]
    rcases Nat.lt_succ_iff_lt_or_eq.mp h with h2 | h2
    · rw [ih h2]
      simp [if_neg (by omega : ¬ k = r)]
    · rw [sum_range_ind_zero k r (by omega)]
      simp [h2.symm]

theorem encodings_row_sums_length (vocab : List (Option Char))
    (tokens : List (Option Char)) :
    ((encodings vocab tokens).map List.sum).length = vocab.length := by
  simp [encodings]

theorem encodings_row_sums_nonneg (vocab : List (Option Char))
    (tokens : List (Option Char)) :
    ∀ a ∈ (encodings vocab tokens).map List.sum, 0 ≤ a := by
  intro a ha
  obtain ⟨row, hrow, rfl⟩ := List.mem_map.mp ha
  apply List.sum_nonneg
  intro x hx
  unfold encodings at hrow
  obtain ⟨v, hv, rfl⟩ := List.mem_map.mp hrow
  obtain ⟨tok, htok, rfl⟩ := List.mem_map.mp hx
  rw [onehot_getD vocab tok v (List.mem_range.mp hv)]
  split <;> norm_num

theorem encodings_row_sums_sum (vocab : List (Option Char)) (hv : vocab ≠ [])
    (tokens : List (Option Char)) :
    ((encodings vocab tokens).map List.sum).sum = (tokens.length : ℝ) := by
  unfold encodings
  rw [List.map_map]
  induction tokens with
  | nil => simp [Function.comp_def]
  | cons t ts ih =>
    simp only [Function.comp_def, List.map_cons, List.sum_cons, List.length_cons] at *
    rw [show (fun v => (onehot vocab t).getD v 0 +
        (List.map (fun tok => (onehot vocab tok).getD v 0) ts).sum) =
        (fun v => (onehot vocab t).getD v 0 +
        (List.map (fun tok => (onehot vocab tok).getD v 0) ts).sum) from rfl]
    rw [sum_map_add (List.range vocab.length)
      (fun v => (onehot vocab t).getD v 0)
      (fun v => (List.map (fun tok => (onehot vocab tok).getD v 0) ts).sum)]
    rw [ih]
    have hcongr : List.map (fun v => (onehot vocab t).getD v 0) (List.range vocab.length) =
        List.map (fun v => if v = resolvedIdx vocab t then (1:ℝ) else 0)
          (List.range vocab.length) := by
      apply List.map_congr_left
      intro v hv2
      exact onehot_getD vocab t v (List.mem_range.mp hv2)
    rw [hcongr, sum_range_ind _ _ (resolvedIdx_lt vocab t hv)]
    push_cast
    ring

theorem inducedP_init (V : Nat) :
    inducedP (Unigram_init V) = List.replicate V (1 / (V:ℝ)) := by
  have hc : sigmoid (logit ((1:ℝ) / (V:ℝ))) ≠ 0 := ne_of_gt (sigmoid_pos _)
  unfold inducedP Unigram_init normalizeV
  rw [List.map_replicate, List.map_replicate, List.map_replicate, List.sum_replicate,
    List.map_replicate, nsmul_eq_mul]
  rw [mul_comm, ← div_div, div_self hc]

theorem normalizeV_sum_pos (v : List ℝ) (hnn : ∀ a ∈ v, 0 ≤ a)
    (hnz : ∃ a ∈ v, a ≠ 0) : 0 < v.sum := by
  obtain ⟨a, ha, hane⟩ := hnz
  have h1 : a ≤ v.sum := List.single_le_sum hnn a ha
  have h2 : 0 < a := lt_of_le_of_ne (hnn a ha) (Ne.symm hane)
  linarith

theorem normalizeV_sum_eq_one (v : List ℝ) (hv : v.sum ≠ 0) :
    (normalizeV v).sum = 1 := by
  unfold normalizeV
  rw [sum_map_div, div_self hv]

theorem inducedP_pos_sum (s : List ℝ) (hs : s ≠ []) :
    (∀ a ∈ inducedP s, 0 < a) ∧ (inducedP s).sum = 1 := by
  have hpos : ∀ a ∈ s.map sigmoid, 0 < a := by
    intro a ha
    obtain ⟨b, _, rfl⟩ := List.mem_map.mp ha
    exact sigmoid_pos b
  have hne : s.map sigmoid ≠ [] := by
    simpa using hs
  have hsum : 0 < (s.map sigmoid).sum := List.sum_pos _ hpos hne
  constructor
  · intro a ha
    obtain ⟨b, hb, rfl⟩ := List.mem_map.mp ha
    exact div_pos (hpos b hb) hsum
  · exact normalizeV_sum_eq_one _ (ne_of_gt hsum)

/- Claim theorems. -/

/-- Claim C1: for every parameter vector s and every batch matrix, the forward
pass computes the distribution p as normalize of the entrywise sigmoid of s and
returns the dot product of the per-symbol column-sum count vector of the batch
with log p, together with p itself. -/
theorem claim_forward_spec (s : List ℝ) (input : List (List ℝ)) :
    forward s input =
      (dotL (input.map List.sum) ((inducedP s).map Real.log), inducedP s) :=
  forward_eval s input

/-- Claim C2: at initialization, and equivalently after 0 training iterations,
every entry of s equals logit of 1 over V, and the induced distribution is
exactly uniform with every entry 1 over V, in particular 1 over 28 for the
28-symbol vocabulary. -/
theorem claim_init_uniform (V : Nat) (input : List (List ℝ)) :
    Unigram_init V = List.replicate V (logit (1 / (V:ℝ))) ∧
    inducedP (Unigram_init V) = List.replicate V (1 / (V:ℝ)) ∧
    (trainLoopN input 0).s = Unigram_init 28 ∧
    inducedP ((trainLoopN input 0).s) = List.replicate 28 ((1:ℝ) / 28) := by
  refine ⟨?_, inducedP_init V, ?_, ?_⟩
  · unfold Unigram_init
    rw [List.map_replicate, List.map_replicate]
  · rw [trainLoopN_zero]
    show Unigram_init vocabulary.length = Unigram_init 28
    rw [vocabulary_length]
  · rw [trainLoopN_zero]
    show inducedP (Unigram_init vocabulary.length) = _
    rw [vocabulary_length, inducedP_init]
    norm_num

/-- Claim C4: for any vocabulary and any token present in it, onehot returns a
length-V vector with a single entry 1 at the index of the token in the
vocabulary and 0 at every other index. -/
theorem claim_onehot_mem (vocab : List (Option Char)) (token : Option Char)
    (h : token ∈ vocab) :
    (onehot vocab token).length = vocab.length ∧
    ∀ j, j < vocab.length →
      (onehot vocab token).getD j 0 = if j = vocab.indexOf token then 1 else 0 := by
  refine ⟨onehot_length vocab token, fun j hj => ?_⟩
  rw [onehot_getD vocab token j hj, resolvedIdx_of_mem h]

theorem claim_onehot_mem_witness :
    ((some (Char.ofNat 98) : Option Char) ∈ vocabulary) ∧
    ((onehot vocabulary (some (Char.ofNat 98))).length = vocabulary.length ∧
     ∀ j, j < vocabulary.length →
       (onehot vocabulary (some (Char.ofNat 98))).getD j 0 =
         if j = vocabulary.indexOf (some (Char.ofNat 98)) then 1 else 0) :=
  ⟨by decide, claim_onehot_mem vocabulary (some (Char.ofNat 98)) (by decide)⟩

/-- Claim C5: for any token absent from a non-empty vocabulary, onehot raises no
error and returns a vector whose only 1 entry is at the sentinel index, the last
vocabulary position V-1. -/
theorem claim_onehot_not_mem (vocab : List (Option Char)) (token : Option Char)
    (h : token ∉ vocab) (_hv : vocab ≠ []) :
    (onehot vocab token).length = vocab.length ∧
    ∀ j, j < vocab.length →
      (onehot vocab token).getD j 0 = if j = vocab.length - 1 then 1 else 0 := by
  refine ⟨onehot_length vocab token, fun j hj => ?_⟩
  rw [onehot_getD vocab token j hj, resolvedIdx_of_not_mem h]

theorem claim_onehot_not_mem_witness :
    ((some (Char.ofNat 63) : Option Char) ∉ vocabulary) ∧ (vocabulary ≠ []) ∧
    ((onehot vocabulary (some (Char.ofNat 63))).length = vocabulary.length ∧
     ∀ j, j < vocabulary.length →
       (onehot vocabulary (some (Char.ofNat 63))).getD j 0 =
         if j = vocabulary.length - 1 then 1 else 0) :=
  ⟨by decide, by decide,
   claim_onehot_not_mem vocabulary (some (Char.ofNat 63)) (by decide) (by decide)⟩

/-- Claim C6: normalize of a non-all-zero non-negative vector sums to 1, and for
any non-empty parameter vector s the induced distribution p has all entries
positive and sums to 1. -/
theorem claim_normalize_sum_one (v : List ℝ) (s : List ℝ)
    (hnn : ∀ a ∈ v, 0 ≤ a) (hnz : ∃ a ∈ v, a ≠ 0) (hs : s ≠ []) :
    (normalizeV v).sum = 1 ∧
    (∀ a ∈ inducedP s, 0 < a) ∧ (inducedP s).sum = 1 :=
  ⟨normalizeV_sum_eq_one v (ne_of_gt (normalizeV_sum_pos v hnn hnz)),
   (inducedP_pos_sum s hs).1, (inducedP_pos_sum s hs).2⟩

theorem claim_normalize_sum_one_witness :
    (∀ a ∈ [(2:ℝ), 1], 0 ≤ a) ∧ (∃ a ∈ [(2:ℝ), 1], a ≠ 0) ∧ ([(0:ℝ)] ≠ []) ∧
    ((normalizeV [(2:ℝ), 1]).sum = 1 ∧
     (∀ a ∈ inducedP [(0:ℝ)], 0 < a) ∧ (inducedP [(0:ℝ)]).sum = 1) :=
  ⟨by intro a ha; rcases List.mem_cons.mp ha with rfl | ha2 <;> simp_all,
   ⟨2, by simp, by norm_num⟩, by simp,
   claim_normalize_sum_one [(2:ℝ), 1] [(0:ℝ)]
     (by intro a ha; rcases List.mem_cons.mp ha with rfl | ha2 <;> simp_all)
     ⟨2, by simp, by norm_num⟩ (by simp)⟩

/-- Claim C7: logit and sigmoid are mutually inverse on the unit interval: logit
of sigmoid of x recovers x and sigmoid of logit of p recovers p. -/
theorem claim_logit_sigmoid_roundtrip (x p : ℝ)
    (_hx0 : 0 < x) (_hx1 : x < 1) (hp0 : 0 < p) (hp1 : p < 1) :
    logit (sigmoid x) = x ∧ sigmoid (logit p) = p :=
  ⟨logit_sigmoid x, sigmoid_logit hp0 hp1⟩

theorem claim_logit_sigmoid_roundtrip_witness :
    ((0:ℝ) < 1/2 ∧ (1:ℝ)/2 < 1) ∧
    (logit (sigmoid (1/2)) = 1/2 ∧ sigmoid (logit (1/2)) = 1/2) :=
  ⟨⟨by norm_num, by norm_num⟩,
   claim_logit_sigmoid_roundtrip (1/2) (1/2)
     (by norm_num) (by norm_num) (by norm_num) (by norm_num)⟩

/-- Claim C8: the training loop runs for exactly the fixed count of 100
iterations with no early stopping; the history has exactly 100 entries, entry i
is the pair of i and the negated log-likelihood of the batch at the parameters
of iteration i, the optimizer has taken exactly 100 steps at termination, and
each successor state arises from one application of the loop body. -/
theorem claim_training_loop_structure (input : List (List ℝ)) (i : Nat) :
    num_iterations = 100 ∧
    (gradientDescentModel input).history.length = 100 ∧
    (gradientDescentModel input).history[i]? =
      (if i < 100 then some (i, -(forward (trainLoopN input i).s input).1) else none) ∧
    (gradientDescentModel input).opt.t = 100 ∧
    trainLoopN input (i + 1) = trainIter input (trainLoopN input i) :=
  ⟨rfl, trainLoopN_history_length input 100, trainLoopN_history_get input 100 i,
   trainLoopN_opt_t input 100, trainLoopN_succ input i⟩

/-- Claim C10: the forward pass does not modify the parameter vector s: as a
state transformer it returns the state unchanged, and within one loop iteration
the parameters change only through the optimizer step. -/
theorem claim_forward_pure (input : List (List ℝ)) (st : TrainState) :
    forwardM input st = (st, forward st.s input) ∧
    (forwardM input st).1.s = st.s ∧
    (trainIter input st).s =
      (adamStep 0.02 st.opt st.s
        (List.zipWith (fun a b => a + b) st.grad (gradLoss input st.s))).1 :=
  ⟨rfl, rfl, rfl⟩

/-- Claim C3: for every non-empty corpus, the loss recorded at iteration 0 of
training is the negative log-likelihood of the corpus under the initial uniform
distribution, and it is at least the theoretical minimum loss computed by the
reporting phase from the empirical frequency distribution. -/
theorem claim_iter0_loss_ge_min (tokens : List (Option Char)) (h : tokens ≠ []) :
    (gradientDescentModel (encodings vocabulary tokens)).history[0]? =
      some (0, -(forward (Unigram_init vocabulary.length)
        (encodings vocabulary tokens)).1) ∧
    minLossE (encodings vocabulary tokens) ((tokens.length : ℝ)) ≤
      -(forward (Unigram_init vocabulary.length) (encodings vocabulary tokens)).1 := by
  have hvne : vocabulary ≠ [] := by simp [vocabulary]
  have hT : (0:ℝ) < (tokens.length : ℝ) := by exact_mod_cast List.length_pos.mpr h
  have hnn := encodings_row_sums_nonneg vocabulary tokens
  have hsum := encodings_row_sums_sum vocabulary hvne tokens
  have hlenN : ((encodings vocabulary tokens).map List.sum).length = 28 := by
    rw [encodings_row_sums_length, vocabulary_length]
  constructor
  · show (trainLoopN _ num_iterations).history[0]? = _
    rw [trainLoopN_history_get]
    norm_num [num_iterations]
    rfl
  · have hgibbs := gibbs_sum ((encodings vocabulary tokens).map List.sum)
      (tokens.length : ℝ) ((((encodings vocabulary tokens).map List.sum).length : ℕ) : ℝ)
      hT (by rw [hlenN]; norm_num) hnn hsum rfl
    have hfst : (forward (Unigram_init vocabulary.length) (encodings vocabulary tokens)).1 =
        ((encodings vocabulary tokens).map List.sum).sum *
          Real.log (1 / ((((encodings vocabulary tokens).map List.sum).length : ℕ) : ℝ)) := by
      rw [forward_eval]
      show loglikSpec _ _ = _
      unfold loglikSpec
      rw [vocabulary_length, ← hlenN, inducedP_init, List.map_replicate, dotL_replicate]
    rw [minLossE_eval, hfst]
    have htrue : (trueP (encodings vocabulary tokens) (tokens.length : ℝ)).map Real.log =
        ((encodings vocabulary tokens).map List.sum).map
          (fun a => Real.log (a / (tokens.length : ℝ))) := by
      unfold trueP
      rw [List.map_map]
      rfl
    rw [htrue, dotL_self_map]
    exact neg_le_neg hgibbs

theorem claim_iter0_loss_ge_min_witness :
    (([some (Char.ofNat 97)] : List (Option Char)) ≠ []) ∧
    ((gradientDescentModel (encodings vocabulary [some (Char.ofNat 97)])).history[0]? =
      some (0, -(forward (Unigram_init vocabulary.length)
        (encodings vocabulary [some (Char.ofNat 97)])).1) ∧
     minLossE (encodings vocabulary [some (Char.ofNat 97)])
        ((([some (Char.ofNat 97)] : List (Option Char)).length : ℝ)) ≤
      -(forward (Unigram_init vocabulary.length)
        (encodings vocabulary [some (Char.ofNat 97)])).1) :=
  ⟨by decide, claim_iter0_loss_ge_min [some (Char.ofNat 97)] (by decide)⟩

/-- Claim C9: for every non-empty vocabulary and every token, the index at which
onehot writes its single 1 is within bounds, so the write into the length-V zero
vector never goes out of range; in particular the fallback branch produces the
valid index V-1. -/
theorem claim_onehot_index_in_bounds (vocab : List (Option Char))
    (token : Option Char) (hv : vocab ≠ []) :
    resolvedIdx vocab token < vocab.length ∧
    (onehot vocab token).length = vocab.length ∧
    (token ∉ vocab → resolvedIdx vocab token = vocab.length - 1) :=
  ⟨resolvedIdx_lt vocab token hv, onehot_length vocab token,
   fun hnm => resolvedIdx_of_not_mem hnm⟩

theorem claim_onehot_index_in_bounds_witness :
    (vocabulary ≠ []) ∧
    (resolvedIdx vocabulary none < vocabulary.length ∧
     (onehot vocabulary none).length = vocabulary.length ∧
     (none ∉ vocabulary → resolvedIdx vocabulary none = vocabulary.length - 1)) :=
  ⟨by decide, claim_onehot_index_in_bounds vocabulary none (by decide)⟩
